import Mathlib

/-!
Shallow embedding of the DAG visualization component of the p2pool dashboard
(`DagVisualization`): the layout pass that assigns 2D coordinates to fetched
share-chain nodes, the render pass (edge and node draw lists), and the
viewport controller (pan, zoom, hit-testing, click selection).

JS numbers are modelled as exact rationals (`ℚ`); the JS sentinel values
`Infinity` / `-Infinity` used to seed the bounding-box accumulation are
modelled as `⊤ : WithTop ℚ` / `⊥ : WithBot ℚ`.  JS `Map` objects are
modelled as insertion-ordered association lists with `set`-semantics
(overwrite in place, append when the key is new), which matches JS `Map`
iteration order.
-/

namespace DagViz

attribute [local semireducible] Rat.add Rat.sub Rat.mul Rat.inv

/-- One share-chain block candidate, as delivered by `GET /api/chain/dag`
(interface `DagNode` in `chainApi.ts`). -/
structure DagNode where
  hash : String
  prev_hash : String
  uncles : List String
  height : Int
  miner_pubkey : String
  timestamp : Int
  is_main_chain : Bool
  is_uncle : Bool
deriving DecidableEq, Repr

/-- Directed relationship between two node hashes (interface `DagEdge`);
the TS fields `from` / `to` are Lean keywords and are embedded as
`fromHash` / `toHash`. `edge_type` is `"parent"` or `"uncle"`. -/
structure DagEdge where
  fromHash : String
  toHash : String
  edge_type : String
deriving DecidableEq, Repr

/-- Response of the DAG endpoint (interface `DagResponse`). -/
structure DagResponse where
  nodes : List DagNode
  edges : List DagEdge
  tip_hash : String
  from_height : Int
  to_height : Int
deriving DecidableEq, Repr

/-- Derived position of one node in model space (interface `NodePosition`). -/
structure NodePosition where
  x : ℚ
  y : ℚ
  node : DagNode
deriving DecidableEq, Repr

/-- A 2D point (used for `panOffset` and mouse positions). -/
structure Pt where
  x : ℚ
  y : ℚ
deriving DecidableEq, Repr

/-- Canvas-space bounding box of the laid-out nodes (state `canvasBounds`).
`minX` is seeded with `Infinity` and `maxX` with `-Infinity` by the layout
effect, hence the `WithTop` / `WithBot` types. -/
structure CanvasBounds where
  minX : WithTop ℚ
  maxX : WithBot ℚ
  minY : ℚ
  maxY : ℚ
deriving DecidableEq

/-! ### Layout engine

Embeds the layout effect of `DagVisualization` (grouping by height,
descending height sort, per-bucket horizontal placement, bounding box). -/

/-- One step of the grouping loop: `nodesByHeight.get(node.height) || []`,
`push`, `set` — append the node to its height bucket, creating the bucket
at the end of the (insertion-ordered) map when absent. -/
def insertByHeight (m : List (Int × List DagNode)) (node : DagNode) :
    List (Int × List DagNode) :=
  match m with
  | [] => [(node.height, [node])]
  | (k, b) :: rest =>
    if k = node.height then (k, b ++ [node]) :: rest
    else (k, b) :: insertByHeight rest node

/-- The `nodesByHeight` map after the grouping loop. -/
def groupByHeight (nodes : List DagNode) : List (Int × List DagNode) :=
  nodes.foldl insertByHeight []

/-- Bucket lookup, `nodesByHeight.get(height) || []` (first entry with the
key; the grouping loop keeps keys unique). -/
def bucketOf (m : List (Int × List DagNode)) (k : Int) : List DagNode :=
  match m with
  | [] => []
  | (k', b) :: rest => if k' = k then b else bucketOf rest k

/-- The `heights` array: distinct heights sorted descending
(`sort((a, b) => b - a)`), newest at the top. -/
def sortedHeights (nodes : List DagNode) : List Int :=
  List.insertionSort (fun a b => b ≤ a) ((groupByHeight nodes).map Prod.fst)

/-- Fixed horizontal spacing between node centers (`horizontalSpacing`). -/
def horizontalSpacing : ℚ := 220

/-- Fixed vertical spacing between height rows (`verticalSpacing`). -/
def verticalSpacing : ℚ := 120

/-- Horizontal coordinate of node `j` in a bucket of `len` nodes:
`startX + j * horizontalSpacing` with `startX = -totalWidth/2 +
horizontalSpacing/2`. -/
def rowX (len j : ℕ) : ℚ :=
  -((len : ℚ) * horizontalSpacing) / 2 + horizontalSpacing / 2
    + (j : ℚ) * horizontalSpacing

/-- Positions emitted for one height bucket:
`y = heightIndex * verticalSpacing`, `x = rowX`. -/
def rowPositions (heightIndex : ℕ) (ns : List DagNode) :
    List (String × NodePosition) :=
  ns.enum.map (fun jn =>
    (jn.2.hash,
     ⟨rowX ns.length jn.1,
      (heightIndex : ℚ) * verticalSpacing,
      jn.2⟩))

/-- The stream of `positions.set(node.hash, …)` calls made by the layout
effect, in execution order. -/
def positionStream (nodes : List DagNode) : List (String × NodePosition) :=
  (sortedHeights nodes).enum.flatMap
    (fun ih => rowPositions ih.1 (bucketOf (groupByHeight nodes) ih.2))

/-- JS `Map.prototype.set`: overwrite in place when the key exists,
append otherwise. -/
def setPos (m : List (String × NodePosition)) (k : String) (v : NodePosition) :
    List (String × NodePosition) :=
  match m with
  | [] => [(k, v)]
  | (k', v') :: rest =>
    if k' = k then (k, v) :: rest else (k', v') :: setPos rest k v

/-- The `positions` map produced by one layout pass. -/
def layoutPositions (nodes : List DagNode) : List (String × NodePosition) :=
  (positionStream nodes).foldl (fun m kv => setPos m kv.1 kv.2) []

/-- Bounding-box accumulation of the layout effect: seeded with
`minX = Infinity, maxX = -Infinity, minY = 0, maxY = 0`, then per node
`minX = min minX (x-100)`, `maxX = max maxX (x+100)`, `maxY = max maxY (y+80)`
(`minY` is never updated). -/
def layoutBounds (nodes : List DagNode) : CanvasBounds :=
  (positionStream nodes).foldl
    (fun b kv =>
      ⟨min b.minX ((kv.2.x - 100 : ℚ) : WithTop ℚ),
       max b.maxX ((kv.2.x + 100 : ℚ) : WithBot ℚ),
       b.minY,
       max b.maxY (kv.2.y + 80)⟩)
    ⟨⊤, ⊥, 0, 0⟩

/-! ### Render pipeline -/

/-- Position-map lookup, `nodePositions.get(hash)`. -/
def lookupPos (m : List (String × NodePosition)) (k : String) :
    Option NodePosition :=
  match m.find? (fun p => decide (p.1 = k)) with
  | some p => some p.2
  | none => none

/-- Record of one edge actually drawn by the edge loop: dashed purple for
`edge_type === 'uncle'`, solid gray for parent. -/
structure EdgeDraw where
  edge : DagEdge
  fromPos : NodePosition
  toPos : NodePosition
  dashed : Bool
  strokeColor : String
deriving DecidableEq, Repr

/-- Styling branch of the edge loop. -/
def drawEdge (f t : NodePosition) (e : DagEdge) : EdgeDraw :=
  if e.edge_type = "uncle" then ⟨e, f, t, true, "#a855f7"⟩
  else ⟨e, f, t, false, "#64748b"⟩

/-- The edge loop: `const fromPos = …get(edge.from); const toPos =
…get(edge.to); if (!fromPos || !toPos) return;` — dangling edges are
skipped, the rest are drawn. -/
def renderEdges (positions : List (String × NodePosition))
    (edges : List DagEdge) : List EdgeDraw :=
  edges.filterMap (fun e =>
    match lookupPos positions e.fromHash, lookupPos positions e.toHash with
    | some f, some t => some (drawEdge f t e)
    | _, _ => none)

/-- The `isSelected` test of the node loop: `selectedNode?.hash === hash`. -/
def isSelectedHash (selectedNode : Option DagNode) (hash : String) : Bool :=
  match selectedNode with
  | some s => decide (s.hash = hash)
  | none => false

/-- Fill-color chain of the node loop:
`isSelected ? '#f97316' : isTip ? '#22c55e' : node.is_uncle ? '#a855f7' :
node.is_main_chain ? '#3b82f6' : '#6b7280'`. -/
def nodeFillColor (selectedNode : Option DagNode) (tip_hash : String)
    (hash : String) (node : DagNode) : String :=
  if isSelectedHash selectedNode hash then "#f97316"
  else if tip_hash = hash then "#22c55e"
  else if node.is_uncle then "#a855f7"
  else if node.is_main_chain then "#3b82f6"
  else "#6b7280"

/-- Draw list of one frame: edges (drawn first, behind nodes) and the
fill color chosen for every node. -/
structure FrameDraw where
  edgeDraws : List EdgeDraw
  nodeFills : List (String × String)
deriving DecidableEq, Repr

/-- The render effect: `if (!canvas || !dagData || nodePositions.size === 0)
return;` — `none` models the silently skipped frame (no draw calls, no
error); otherwise the edge pass then the node pass run. -/
def renderFrame (canvasPresent : Bool) (dagData : Option DagResponse)
    (positions : List (String × NodePosition))
    (selectedNode : Option DagNode) : Option FrameDraw :=
  if !canvasPresent then none
  else
    match dagData with
    | none => none
    | some data =>
      if positions.length = 0 then none
      else some
        ⟨renderEdges positions data.edges,
         positions.map (fun kv =>
           (kv.1, nodeFillColor selectedNode data.tip_hash kv.1 kv.2.node))⟩

/-! ### Viewport controller -/

/-- JS `Math.abs` on our rational model of JS numbers. -/
def jsAbs (q : ℚ) : ℚ := if q < 0 then -q else q

/-- Hit predicate of the click handler: the point lies within the node's
fixed-size rectangle `[x-80, x+80] × [y, y+70]`. -/
def nodeHit (pos : NodePosition) (x y : ℚ) : Bool :=
  decide (pos.x - 80 ≤ x) && decide (x ≤ pos.x + 80) &&
  decide (pos.y ≤ y) && decide (y ≤ pos.y + 70)

/-- The `for (const [hash, pos] of nodePositions)` search of
`handleCanvasClick`: first node whose rectangle contains the point,
`null` (here `none`) when no node is hit. -/
def hitTest (positions : List (String × NodePosition)) (x y : ℚ) :
    Option DagNode :=
  match positions.find? (fun kv => nodeHit kv.2 x y) with
  | some kv => some kv.2.node
  | none => none

/-- Handler `handleCanvasClick`: when the click position differs from
`lastMousePos` by more than 5px in either axis the handler returns early
(selection unchanged); otherwise the screen point is mapped through the
inverse render transform and hit-tested, and the result (possibly `none`)
becomes the new `selectedNode`. -/
def handleCanvasClick (rectLeft rectTop width : ℚ) (lastMousePos panOffset : Pt)
    (zoom : ℚ) (positions : List (String × NodePosition))
    (selectedNode : Option DagNode) (clientX clientY : ℚ) : Option DagNode :=
  if 5 < jsAbs (clientX - lastMousePos.x) ∨ 5 < jsAbs (clientY - lastMousePos.y)
  then selectedNode
  else hitTest positions
    ((clientX - rectLeft - width / 2 - panOffset.x) / zoom)
    ((clientY - rectTop - 80 - panOffset.y) / zoom)

/-- Handler `handleWheel`: `delta = e.deltaY > 0 ? -0.1 : 0.1;
setZoom(z => Math.max(0.2, Math.min(3, z + delta)))`. -/
def handleWheel (deltaY : ℚ) (zoom : ℚ) : ℚ :=
  max (1/5) (min 3 (zoom + (if 0 < deltaY then -(1/10) else 1/10)))

/-- Zoom-in button: `setZoom(z => Math.min(3, z + 0.1))`. -/
def zoomInStep (z : ℚ) : ℚ := min 3 (z + 1/10)

/-- Zoom-out button: `setZoom(z => Math.max(0.2, z - 0.1))`. -/
def zoomOutStep (z : ℚ) : ℚ := max (1/5) (z - 1/10)

/-! ### Component state machine

The mutable state of `DagVisualization` that the claims are about, and the
discrete events that mutate it (each handler runs to completion). -/

/-- The component state touched by the layout effect and the pointer /
wheel handlers. -/
structure ViewState where
  selectedNode : Option DagNode
  zoom : ℚ
  panOffset : Pt
  isPanning : Bool
  lastMousePos : Pt
  nodePositions : List (String × NodePosition)
  canvasBounds : CanvasBounds
deriving DecidableEq

/-- Discrete input events: pointer events on the canvas, wheel, the zoom /
navigation buttons, and the arrival of a freshly fetched node set (which
triggers the layout effect). -/
inductive UiEvent where
  | mouseDown (x y : ℚ)
  | mouseMove (x y : ℚ)
  | mouseUp
  | mouseLeave
  | click (x y : ℚ)
  | wheel (deltaY : ℚ)
  | dataArrived (nodes : List DagNode)
  | zoomInBtn
  | zoomOutBtn
  | resetViewEvt
  | jumpToTipEvt
deriving DecidableEq

/-- Initial state: `selectedNode = null`, `zoom = 1`, `panOffset = {0,0}`,
`isPanning = false`, `lastMousePos = {0,0}`, empty position map,
`canvasBounds = {0,0,0,0}`. -/
def initState : ViewState :=
  ⟨none, 1, ⟨0, 0⟩, false, ⟨0, 0⟩, [], ⟨(0 : ℚ), (0 : ℚ), 0, 0⟩⟩

/-- One event handled to completion, mirroring the handlers of
`DagVisualization`: `handleMouseDown` records the anchor and enters
panning; `handleMouseMove` (only while panning) adds the incremental delta
to `panOffset` and re-anchors `lastMousePos`; `handleMouseUp` /
`handleMouseLeave` leave panning; `handleCanvasClick` updates the
selection; `handleWheel` and the zoom buttons update `zoom`; the layout
effect (`dataArrived`) recomputes positions and bounds and resets
`panOffset` to the origin; `resetView` sets `zoom = 1, panOffset = {0,0}`;
`jumpToTip` resets `panOffset`. -/
def step (rectLeft rectTop width : ℚ) (s : ViewState) : UiEvent → ViewState
  | .mouseDown x y => { s with isPanning := true, lastMousePos := ⟨x, y⟩ }
  | .mouseMove x y =>
    if s.isPanning then
      { s with
        panOffset := ⟨s.panOffset.x + (x - s.lastMousePos.x),
                      s.panOffset.y + (y - s.lastMousePos.y)⟩,
        lastMousePos := ⟨x, y⟩ }
    else s
  | .mouseUp => { s with isPanning := false }
  | .mouseLeave => { s with isPanning := false }
  | .click x y =>
    let sel := handleCanvasClick rectLeft rectTop width s.lastMousePos
      s.panOffset s.zoom s.nodePositions s.selectedNode x y
    { s with selectedNode := sel }
  | .wheel d => { s with zoom := handleWheel d s.zoom }
  | .dataArrived nodes =>
    { s with
      nodePositions := layoutPositions nodes,
      canvasBounds := layoutBounds nodes,
      panOffset := ⟨0, 0⟩ }
  | .zoomInBtn => { s with zoom := zoomInStep s.zoom }
  | .zoomOutBtn => { s with zoom := zoomOutStep s.zoom }
  | .resetViewEvt => { s with zoom := 1, panOffset := ⟨0, 0⟩ }
  | .jumpToTipEvt => { s with panOffset := ⟨0, 0⟩ }

/-- A sequence of events handled in order. -/
def runEvents (rectLeft rectTop width : ℚ) (s : ViewState)
    (es : List UiEvent) : ViewState :=
  es.foldl (step rectLeft rectTop width) s

/-- The zoom-modifying operations reachable from the UI: wheel events and
the two zoom buttons. -/
inductive ZoomOp where
  | wheelOp (deltaY : ℚ)
  | zoomInOp
  | zoomOutOp
deriving DecidableEq

/-- Effect of one zoom-modifying operation on the zoom factor. -/
def applyZoomOp (z : ℚ) : ZoomOp → ℚ
  | .wheelOp d => handleWheel d z
  | .zoomInOp => zoomInStep z
  | .zoomOutOp => zoomOutStep z

/-! ### Sample data used by concrete witnesses and counterexamples.

Mirrors the scenario of spec §8: nodes `a`, `b` at height 5, node `c` at
height 4, tip `a`. -/

/-- Sample main-chain tip node at height 5. -/
def nodeA : DagNode := ⟨"aa11", "cc33", [], 5, "pkA", 1700000000, true, false⟩

/-- Sample uncle node at height 5. -/
def nodeB : DagNode := ⟨"bb22", "cc33", [], 5, "pkB", 1700000001, false, true⟩

/-- Sample main-chain node at height 4. -/
def nodeC : DagNode := ⟨"cc33", "zz99", [], 4, "pkC", 1700000002, true, false⟩

/-- Sample orphan node (neither main-chain nor uncle). -/
def nodeD : DagNode := ⟨"dd44", "zz99", [], 4, "pkD", 1700000003, false, false⟩

/-- Sample fetched node set. -/
def sampleNodes : List DagNode := [nodeA, nodeB, nodeC]

/-- Layout of the sample node set: `a` at `(-110, 0)`, `b` at `(110, 0)`,
`c` at `(0, 120)`. -/
def sampleLayout : List (String × NodePosition) := layoutPositions sampleNodes

/-- Parent edge `c → a` of the sample scenario. -/
def edgeCA : DagEdge := ⟨"cc33", "aa11", "parent"⟩

/-- Edge whose `from` endpoint is outside the fetched window (dangling). -/
def edgeDangling : DagEdge := ⟨"zz99", "cc33", "parent"⟩

/-- Sample edge list: one drawable edge and one dangling edge. -/
def sampleEdges : List DagEdge := [edgeCA, edgeDangling]

/-- Start state of the drag scenario: one laid-out node (at model `(0,0)`)
and a current selection. -/
def dragStartState : ViewState :=
  { initState with
    nodePositions := layoutPositions [nodeA],
    selectedNode := some nodeA }

/-- A drag gesture of 200px in each axis: pointer down at `(0,0)`, a move
to `(200,200)` while panning, pointer up, then the browser-dispatched
click at the pointer-up position `(200,200)`. -/
def dragEvents : List UiEvent :=
  [.mouseDown 0 0, .mouseMove 200 200, .mouseUp, .click 200 200]

/-- A pan gesture moving the viewport by `(30,40)`. -/
def panEvents : List UiEvent := [.mouseDown 0 0, .mouseMove 30 40, .mouseUp]

/-! ## Theorems -/

/-- The wheel handler always lands inside the clamp interval `[0.2, 3]`,
whatever the incoming zoom. -/
theorem handleWheel_bounds (d z : ℚ) :
    1/5 ≤ handleWheel d z ∧ handleWheel d z ≤ 3 := by
  unfold handleWheel
  exact ⟨le_max_left _ _, max_le (by norm_num) (min_le_left _ _)⟩

/-- Every zoom-modifying operation maps the interval `[0.2, 3]` into
itself. -/
theorem applyZoomOp_bounds (z : ℚ) (hz1 : 1/5 ≤ z) (hz2 : z ≤ 3)
    (op : ZoomOp) : 1/5 ≤ applyZoomOp z op ∧ applyZoomOp z op ≤ 3 := by
  cases op with
  | wheelOp d => exact handleWheel_bounds d z
  | zoomInOp =>
    unfold applyZoomOp zoomInStep
    exact ⟨le_min (by norm_num) (by linarith), min_le_left _ _⟩
  | zoomOutOp =>
    unfold applyZoomOp zoomOutStep
    exact ⟨le_max_left _ _, max_le (by norm_num) (by linarith)⟩

/-- Folding any sequence of zoom operations stays inside `[0.2, 3]`. -/
theorem foldl_applyZoomOp_bounds (ops : List ZoomOp) :
    ∀ z : ℚ, 1/5 ≤ z → z ≤ 3 →
      1/5 ≤ ops.foldl applyZoomOp z ∧ ops.foldl applyZoomOp z ≤ 3 := by
  induction ops with
  | nil => exact fun z h1 h2 => ⟨h1, h2⟩
  | cons op t ih =>
    intro z h1 h2
    have h := applyZoomOp_bounds z h1 h2 op
    exact ih _ h.1 h.2

/-- Folding any sequence of wheel events stays inside `[0.2, 3]`. -/
theorem foldl_wheel_bounds (ds : List ℚ) :
    ∀ z : ℚ, 1/5 ≤ z → z ≤ 3 →
      1/5 ≤ ds.foldl (fun w d => handleWheel d w) z ∧
        ds.foldl (fun w d => handleWheel d w) z ≤ 3 := by
  induction ds with
  | nil => exact fun z h1 h2 => ⟨h1, h2⟩
  | cons d t ih =>
    intro z h1 h2
    have h := handleWheel_bounds d z
    exact ih _ h.1 h.2

/-- C7: a wheel event with `deltaY = 120` at `zoom = 1` yields `zoom =
0.9`; the wheel step depends only on the sign of `deltaY`, never on its
magnitude; away from the clamp boundary the step is exactly `0.1` down
(positive delta) or `0.1` up (non-positive delta); and repeated wheel
application never leaves `[0.2, 3]`. -/
theorem wheel_fixed_step_clamped :
    handleWheel 120 1 = 9/10 ∧
    (∀ d d' z : ℚ, (0 < d ↔ 0 < d') → handleWheel d z = handleWheel d' z) ∧
    (∀ d z : ℚ, 0 < d → 1/5 ≤ z - 1/10 → z ≤ 3 →
      handleWheel d z = z - 1/10) ∧
    (∀ d z : ℚ, d ≤ 0 → 1/5 ≤ z → z + 1/10 ≤ 3 →
      handleWheel d z = z + 1/10) ∧
    (∀ (ds : List ℚ) (z : ℚ), 1/5 ≤ z → z ≤ 3 →
      1/5 ≤ ds.foldl (fun w d => handleWheel d w) z ∧
        ds.foldl (fun w d => handleWheel d w) z ≤ 3) := by
  refine ⟨by norm_num [handleWheel], ?_, ?_, ?_, fun ds z h1 h2 => foldl_wheel_bounds ds z h1 h2⟩
  · intro d d' z h
    unfold handleWheel
    by_cases hd : 0 < d
    · rw [if_pos hd, if_pos (h.1 hd)]
    · rw [if_neg hd, if_neg (fun h' => hd (h.2 h'))]
  · intro d z hd h1 h2
    unfold handleWheel
    rw [if_pos hd]
    have hs : z + -(1/10) = z - 1/10 := by ring
    rw [hs, min_eq_right (by linarith), max_eq_right (by linarith)]
  · intro d z hd h1 h2
    unfold handleWheel
    rw [if_neg (not_lt.2 hd), min_eq_right (by linarith),
      max_eq_right (by linarith)]

/-- Witness for C7 at concrete inputs. -/
theorem wheel_fixed_step_clamped_witness :
    handleWheel 120 1 = 1 - 1/10 ∧ handleWheel (-120) 1 = handleWheel (-1) 1 :=
  ⟨wheel_fixed_step_clamped.2.2.1 120 1 (by norm_num) (by norm_num) (by norm_num),
   wheel_fixed_step_clamped.2.1 (-120) (-1) 1 (by norm_num)⟩

/-- C10: starting from the initial zoom of 1, any sequence of wheel events
and zoom-button presses keeps the zoom within `[0.2, 3]`; and a wheel
event with `deltaY ≤ 0` (including 0) moves the zoom up by the clamped
`0.1` step, since only strictly positive `deltaY` zooms out. -/
theorem zoom_always_in_range :
    (∀ ops : List ZoomOp,
      1/5 ≤ ops.foldl applyZoomOp 1 ∧ ops.foldl applyZoomOp 1 ≤ 3) ∧
    (∀ d z : ℚ, d ≤ 0 → handleWheel d z = max (1/5) (min 3 (z + 1/10))) := by
  constructor
  · exact fun ops => foldl_applyZoomOp_bounds ops 1 (by norm_num) (by norm_num)
  · intro d z hd
    unfold handleWheel
    rw [if_neg (not_lt.2 hd)]

/-- Witness for C10 at a concrete input. -/
theorem zoom_always_in_range_witness :
    handleWheel 0 1 = max (1/5) (min 3 ((1 : ℚ) + 1/10)) :=
  zoom_always_in_range.2 0 1 le_rfl

/-- C8: the node fill color follows the precedence selected > tip >
is-uncle > is-main-chain > orphan fallback; a node matching an earlier
predicate never receives a later predicate's color. -/
theorem fill_color_precedence :
    ∀ (sel : Option DagNode) (tip hash : String) (n : DagNode),
      (isSelectedHash sel hash = true →
        nodeFillColor sel tip hash n = "#f97316") ∧
      (isSelectedHash sel hash = false → tip = hash →
        nodeFillColor sel tip hash n = "#22c55e") ∧
      (isSelectedHash sel hash = false → tip ≠ hash → n.is_uncle = true →
        nodeFillColor sel tip hash n = "#a855f7") ∧
      (isSelectedHash sel hash = false → tip ≠ hash → n.is_uncle = false →
        n.is_main_chain = true → nodeFillColor sel tip hash n = "#3b82f6") ∧
      (isSelectedHash sel hash = false → tip ≠ hash → n.is_uncle = false →
        n.is_main_chain = false → nodeFillColor sel tip hash n = "#6b7280") := by
  intro sel tip hash n
  refine ⟨fun h1 => ?_, fun h1 h2 => ?_, fun h1 h2 h3 => ?_,
    fun h1 h2 h3 h4 => ?_, fun h1 h2 h3 h4 => ?_⟩
  · simp [nodeFillColor, h1]
  · simp [nodeFillColor, h1, h2]
  · simp [nodeFillColor, h1, h2, h3]
  · simp [nodeFillColor, h1, h2, h3, h4]
  · simp [nodeFillColor, h1, h2, h3, h4]

/-- Witness for C8: one concrete node per precedence level. -/
theorem fill_color_precedence_witness :
    nodeFillColor (some nodeA) "bb22" "aa11" nodeA = "#f97316" ∧
    nodeFillColor none "aa11" "aa11" nodeA = "#22c55e" ∧
    nodeFillColor none "aa11" "bb22" nodeB = "#a855f7" ∧
    nodeFillColor none "aa11" "cc33" nodeC = "#3b82f6" ∧
    nodeFillColor none "aa11" "dd44" nodeD = "#6b7280" :=
  ⟨(fill_color_precedence (some nodeA) "bb22" "aa11" nodeA).1 (by decide),
   (fill_color_precedence none "aa11" "aa11" nodeA).2.1 rfl rfl,
   (fill_color_precedence none "aa11" "bb22" nodeB).2.2.1 rfl (by decide) rfl,
   (fill_color_precedence none "aa11" "cc33" nodeC).2.2.2.1 rfl (by decide)
     rfl rfl,
   (fill_color_precedence none "aa11" "dd44" nodeD).2.2.2.2 rfl (by decide)
     rfl rfl⟩

/-- C9: the empty node set lays out to an empty position map, the
bounding box stays at its seed (`minX = Infinity`, `maxX = -Infinity`,
`minY = maxY = 0` — vertical extent 0 and an empty horizontal interval,
hence zero area), and the render pass skips the frame (no draw calls)
without error. -/
theorem empty_nodes_empty_layout :
    layoutPositions [] = [] ∧
    layoutBounds [] = ⟨⊤, ⊥, 0, 0⟩ ∧
    (layoutBounds []).maxY - (layoutBounds []).minY = 0 ∧
    renderFrame true (some ⟨[], [], "", 0, 0⟩) (layoutPositions []) none
      = none := by
  exact ⟨rfl, by decide, by decide, rfl⟩

/-- C5: an edge whose `from` or `to` hash is absent from the position map
is never drawn by the edge pass, while every edge with both endpoints
present is drawn; the pass is a total function (it completes without
error). -/
theorem dangling_edges_skipped (positions : List (String × NodePosition))
    (edges : List DagEdge) :
    (∀ e ∈ edges,
      lookupPos positions e.fromHash = none ∨
        lookupPos positions e.toHash = none →
      e ∉ (renderEdges positions edges).map EdgeDraw.edge) ∧
    (∀ e ∈ edges, ∀ f t, lookupPos positions e.fromHash = some f →
      lookupPos positions e.toHash = some t →
      drawEdge f t e ∈ renderEdges positions edges) := by
  constructor
  · intro e he hnone hmem
    simp only [List.mem_map] at hmem
    obtain ⟨d, hd, hde⟩ := hmem
    simp only [renderEdges, List.mem_filterMap] at hd
    obtain ⟨a, ha, hfa⟩ := hd
    rcases hfl : lookupPos positions a.fromHash with _ | f <;>
      rcases htl : lookupPos positions a.toHash with _ | t <;>
      rw [hfl, htl] at hfa
    · exact Option.noConfusion hfa
    · exact Option.noConfusion hfa
    · exact Option.noConfusion hfa
    · have hda : d = drawEdge f t a := (Option.some.inj hfa).symm
      have hedge : d.edge = a := by
        rw [hda]; unfold drawEdge; split <;> rfl
      have hae : a = e := by rw [← hde, hedge]
      subst hae
      rcases hnone with h | h
      · rw [hfl] at h; exact Option.noConfusion h
      · rw [htl] at h; exact Option.noConfusion h
  · intro e he f t hf ht
    simp only [renderEdges, List.mem_filterMap]
    exact ⟨e, he, by rw [hf, ht]⟩

/-- Witness for C5 on the sample layout: the dangling edge is not drawn,
the parent edge `c → a` is. -/
theorem dangling_edges_skipped_witness :
    edgeDangling ∉ (renderEdges sampleLayout sampleEdges).map EdgeDraw.edge ∧
    drawEdge ⟨0, 120, nodeC⟩ ⟨-110, 0, nodeA⟩ edgeCA
      ∈ renderEdges sampleLayout sampleEdges :=
  ⟨(dangling_edges_skipped sampleLayout sampleEdges).1 edgeDangling
      (by decide) (Or.inl (by decide)),
   (dangling_edges_skipped sampleLayout sampleEdges).2 edgeCA (by decide)
      ⟨0, 120, nodeC⟩ ⟨-110, 0, nodeA⟩ (by decide) (by decide)⟩

/-- C3 (code bug): a drag gesture of 200px in each axis — far beyond the
5px threshold between its pointer-down position `(0,0)` and its
pointer-up position `(200,200)` — still runs hit-testing on the click and
clears `selectedNode`, because `handleCanvasClick` compares the click
position against `lastMousePos`, which `handleMouseMove` re-anchored to
the latest move position during the pan (the comment "Don't select if we
were panning" notwithstanding). -/
theorem drag_gesture_changes_selection :
    5 < jsAbs (200 - 0) ∧
    dragStartState.selectedNode = some nodeA ∧
    (runEvents 0 0 800 dragStartState dragEvents).selectedNode = none := by
  decide

/-- C4 is refuted at a concrete run: after panning by `(30,40)`, the
arrival of a new node set resets `panOffset` to `(0,0)` instead of
preserving it. -/
theorem refresh_resets_pan_counterexample :
    (runEvents 0 0 800 initState panEvents).panOffset = ⟨30, 40⟩ ∧
    (step 0 0 800 (runEvents 0 0 800 initState panEvents)
        (.dataArrived sampleNodes)).panOffset ≠
      (runEvents 0 0 800 initState panEvents).panOffset := by
  decide

/-- C4 (amended): a data refresh leaves `zoom` (and the selection)
unchanged, but always resets `panOffset` to the origin — the layout
effect ends with `setPanOffset({x:0, y:0})` to show the tip. -/
theorem refresh_preserves_zoom_resets_pan (rectLeft rectTop width : ℚ)
    (s : ViewState) (nodes : List DagNode) :
    (step rectLeft rectTop width s (.dataArrived nodes)).zoom = s.zoom ∧
    (step rectLeft rectTop width s (.dataArrived nodes)).panOffset = ⟨0, 0⟩ ∧
    (step rectLeft rectTop width s (.dataArrived nodes)).selectedNode
      = s.selectedNode :=
  ⟨rfl, rfl, rfl⟩

/-! ### Properties of the grouping loop -/

/-- Inserting a node extends exactly its height bucket, at the end. -/
theorem bucketOf_insertByHeight (m : List (Int × List DagNode)) (n : DagNode)
    (k : Int) :
    bucketOf (insertByHeight m n) k
      = bucketOf m k ++ (if k = n.height then [n] else []) := by
  induction m with
  | nil =>
    simp only [insertByHeight, bucketOf, List.nil_append]
    by_cases h : k = n.height
    · rw [if_pos h.symm, if_pos h]
    · rw [if_neg (Ne.symm h), if_neg h]
  | cons p rest ih =>
    obtain ⟨k', b⟩ := p
    by_cases h1 : k' = n.height
    · simp only [insertByHeight, if_pos h1, bucketOf]
      by_cases h2 : k' = k
      · rw [if_pos h2, if_pos h2, if_pos (h2.symm.trans h1)]
      · have hx : ¬k = n.height := fun hh => h2 (h1.trans hh.symm)
        rw [if_neg h2, if_neg h2, if_neg hx, List.append_nil]
    · simp only [insertByHeight, if_neg h1, bucketOf]
      by_cases h2 : k' = k
      · have hx : ¬k = n.height := fun hh => h1 (h2.trans hh)
        rw [if_pos h2, if_pos h2, if_neg hx, List.append_nil]
      · rw [if_neg h2, if_neg h2, ih]

/-- Folding the grouping loop accumulates, per height, exactly the nodes
of that height in fetch order. -/
theorem bucketOf_foldl (nodes : List DagNode) :
    ∀ (m : List (Int × List DagNode)) (k : Int),
      bucketOf (nodes.foldl insertByHeight m) k
        = bucketOf m k ++ nodes.filter (fun n => decide (n.height = k)) := by
  induction nodes with
  | nil => intro m k; simp
  | cons n ns ih =>
    intro m k
    rw [List.foldl_cons, ih, bucketOf_insertByHeight, List.filter_cons]
    by_cases h : n.height = k
    · subst h
      simp [List.append_assoc]
    · simp [h, Ne.symm h]

/-- The bucket of height `k` is the fetch-ordered sublist of nodes at
height `k`. -/
theorem bucket_groupByHeight (nodes : List DagNode) (k : Int) :
    bucketOf (groupByHeight nodes) k
      = nodes.filter (fun n => decide (n.height = k)) := by
  simpa [bucketOf] using bucketOf_foldl nodes [] k

/-- Key list of the map after inserting one node. -/
theorem keys_insertByHeight (m : List (Int × List DagNode)) (n : DagNode) :
    (insertByHeight m n).map Prod.fst
      = if n.height ∈ m.map Prod.fst then m.map Prod.fst
        else m.map Prod.fst ++ [n.height] := by
  induction m with
  | nil => simp [insertByHeight]
  | cons p rest ih =>
    obtain ⟨k', b⟩ := p
    by_cases h : k' = n.height
    · simp [insertByHeight, h]
    · have hx : ¬n.height = k' := fun hh => h hh.symm
      simp only [insertByHeight, if_neg h, List.map_cons, ih]
      by_cases h2 : n.height ∈ rest.map Prod.fst
      · simp [h2, hx]
      · simp [h2, hx]

/-- Key membership after inserting one node. -/
theorem mem_keys_insertByHeight (m : List (Int × List DagNode)) (n : DagNode)
    (k : Int) :
    k ∈ (insertByHeight m n).map Prod.fst ↔
      k ∈ m.map Prod.fst ∨ k = n.height := by
  rw [keys_insertByHeight]
  by_cases hm : n.height ∈ m.map Prod.fst
  · rw [if_pos hm]
    constructor
    · exact Or.inl
    · rintro (h | rfl)
      · exact h
      · exact hm
  · rw [if_neg hm]
    simp

/-- Nodup keys are preserved by one insertion. -/
theorem keys_nodup_insertByHeight (m : List (Int × List DagNode))
    (n : DagNode) (h : (m.map Prod.fst).Nodup) :
    ((insertByHeight m n).map Prod.fst).Nodup := by
  rw [keys_insertByHeight]
  by_cases hm : n.height ∈ m.map Prod.fst
  · simpa [hm] using h
  · rw [if_neg hm]
    exact List.nodup_append.2 ⟨h, List.nodup_singleton _,
      List.disjoint_singleton.2 hm⟩

/-- Nodup keys are preserved by the whole grouping fold. -/
theorem keys_nodup_foldl (nodes : List DagNode) :
    ∀ m : List (Int × List DagNode), (m.map Prod.fst).Nodup →
      ((nodes.foldl insertByHeight m).map Prod.fst).Nodup := by
  induction nodes with
  | nil => exact fun m h => h
  | cons n ns ih =>
    intro m h
    exact ih _ (keys_nodup_insertByHeight m n h)

/-- The grouping map has no duplicate height keys. -/
theorem groupByHeight_keys_nodup (nodes : List DagNode) :
    ((groupByHeight nodes).map Prod.fst).Nodup :=
  keys_nodup_foldl nodes [] (by simp)

/-- Key membership in the grouping fold. -/
theorem mem_keys_foldl (nodes : List DagNode) :
    ∀ (m : List (Int × List DagNode)) (k : Int),
      k ∈ (nodes.foldl insertByHeight m).map Prod.fst ↔
        k ∈ m.map Prod.fst ∨ ∃ n ∈ nodes, n.height = k := by
  induction nodes with
  | nil => intro m k; simp
  | cons n ns ih =>
    intro m k
    rw [List.foldl_cons, ih, mem_keys_insertByHeight]
    constructor
    · rintro ((h | h) | ⟨n', hn', hh⟩)
      · exact Or.inl h
      · exact Or.inr ⟨n, List.mem_cons_self _ _, h.symm⟩
      · exact Or.inr ⟨n', List.mem_cons_of_mem _ hn', hh⟩
    · rintro (h | ⟨n', hn', hh⟩)
      · exact Or.inl (Or.inl h)
      · rcases List.mem_cons.1 hn' with rfl | h'
        · exact Or.inl (Or.inr hh.symm)
        · exact Or.inr ⟨n', h', hh⟩

/-- A height is a key of the grouping map exactly when some fetched node
has that height. -/
theorem mem_keys_groupByHeight (nodes : List DagNode) (k : Int) :
    k ∈ (groupByHeight nodes).map Prod.fst ↔ ∃ n ∈ nodes, n.height = k := by
  simpa using mem_keys_foldl nodes [] k

/-! ### Properties of the descending height sort -/

instance : IsTotal Int (fun a b => b ≤ a) := ⟨fun a b => le_total b a⟩

instance : IsTrans Int (fun a b => b ≤ a) :=
  ⟨fun _ _ _ h1 h2 => le_trans h2 h1⟩

/-- The height list is sorted descending. -/
theorem sortedHeights_sorted (nodes : List DagNode) :
    List.Sorted (fun a b : Int => b ≤ a) (sortedHeights nodes) :=
  List.sorted_insertionSort _ _

/-- The height list is a permutation of the grouping-map keys. -/
theorem sortedHeights_perm (nodes : List DagNode) :
    (sortedHeights nodes).Perm ((groupByHeight nodes).map Prod.fst) :=
  List.perm_insertionSort _ _

/-- The height list has no duplicates. -/
theorem sortedHeights_nodup (nodes : List DagNode) :
    (sortedHeights nodes).Nodup :=
  (sortedHeights_perm nodes).nodup_iff.2 (groupByHeight_keys_nodup nodes)

/-- A height occurs in the sorted list exactly when some node has it. -/
theorem mem_sortedHeights (nodes : List DagNode) (k : Int) :
    k ∈ sortedHeights nodes ↔ ∃ n ∈ nodes, n.height = k := by
  rw [(sortedHeights_perm nodes).mem_iff]
  exact mem_keys_groupByHeight nodes k

/-- In a duplicate-free list two positions holding the same value
coincide. -/
theorem getElem?_nodup_inj {α : Type*} {l : List α} (hn : l.Nodup)
    {i j : ℕ} {a : α} (hi : l[i]? = some a) (hj : l[j]? = some a) : i = j := by
  obtain ⟨hi', hia⟩ := List.getElem?_eq_some.1 hi
  obtain ⟨hj', hja⟩ := List.getElem?_eq_some.1 hj
  exact (List.Nodup.getElem_inj_iff hn).1 (hia.trans hja.symm)

/-- In a strictly descending list, the larger value sits strictly
earlier. -/
theorem sorted_desc_index_lt {l : List Int}
    (hs : List.Sorted (fun a b : Int => b ≤ a) l) (hn : l.Nodup)
    {i j : ℕ} {a b : Int} (hi : l[i]? = some a) (hj : l[j]? = some b)
    (hab : b < a) : i < j := by
  obtain ⟨hi', hia⟩ := List.getElem?_eq_some.1 hi
  obtain ⟨hj', hjb⟩ := List.getElem?_eq_some.1 hj
  rcases lt_trichotomy i j with h | h | h
  · exact h
  · exfalso
    subst h
    rw [hia] at hjb
    exact absurd hjb (ne_of_gt hab)
  · exfalso
    have hle := List.pairwise_iff_get.1 hs ⟨j, hj'⟩ ⟨i, hi'⟩ h
    rw [List.get_eq_getElem, List.get_eq_getElem, hia, hjb] at hle
    exact absurd hab (not_lt.2 hle)

/-! ### Properties of the position-map fold -/

/-- Entries of the map after one `set` come from the map or are the set
pair. -/
theorem mem_setPos {m : List (String × NodePosition)} {k : String}
    {v : NodePosition} {e : String × NodePosition} (h : e ∈ setPos m k v) :
    e ∈ m ∨ e = (k, v) := by
  induction m with
  | nil => simpa [setPos] using h
  | cons p rest ih =>
    obtain ⟨k', v'⟩ := p
    by_cases hk : k' = k
    · rw [setPos, if_pos hk] at h
      rcases List.mem_cons.1 h with rfl | h'
      · exact Or.inr rfl
      · exact Or.inl (List.mem_cons_of_mem _ h')
    · rw [setPos, if_neg hk] at h
      rcases List.mem_cons.1 h with rfl | h'
      · exact Or.inl (List.mem_cons_self _ _)
      · rcases ih h' with h'' | h''
        · exact Or.inl (List.mem_cons_of_mem _ h'')
        · exact Or.inr h''

/-- Entries of the folded map come from the accumulator or the emitted
stream. -/
theorem mem_foldl_setPos (l : List (String × NodePosition)) :
    ∀ (m : List (String × NodePosition)) (e : String × NodePosition),
      e ∈ l.foldl (fun m kv => setPos m kv.1 kv.2) m → e ∈ m ∨ e ∈ l := by
  induction l with
  | nil => exact fun m e h => Or.inl h
  | cons kv t ih =>
    intro m e h
    rw [List.foldl_cons] at h
    rcases ih _ _ h with h' | h'
    · rcases mem_setPos h' with h'' | h''
      · exact Or.inl h''
      · right
        rw [h'']
        exact List.mem_cons_self _ _
    · exact Or.inr (List.mem_cons_of_mem _ h')

/-- Every entry of the layout map was emitted by the layout loops. -/
theorem mem_layoutPositions {nodes : List DagNode}
    {e : String × NodePosition} (h : e ∈ layoutPositions nodes) :
    e ∈ positionStream nodes := by
  rcases mem_foldl_setPos _ _ _ h with h' | h'
  · exact absurd h' (List.not_mem_nil _)
  · exact h'

/-- Setting a fresh key appends. -/
theorem setPos_of_not_mem {m : List (String × NodePosition)} {k : String}
    (v : NodePosition) (h : k ∉ m.map Prod.fst) :
    setPos m k v = m ++ [(k, v)] := by
  induction m with
  | nil => rfl
  | cons p rest ih =>
    obtain ⟨k', v'⟩ := p
    rw [setPos, if_neg (fun hh => h (by simp [hh])),
      ih (fun hh => h (by simp [hh])), List.cons_append]

/-- Folding a stream of distinct fresh keys into a map appends the
stream. -/
theorem foldl_setPos_eq (l : List (String × NodePosition)) :
    ∀ m : List (String × NodePosition), (l.map Prod.fst).Nodup →
      (∀ k ∈ l.map Prod.fst, k ∉ m.map Prod.fst) →
      l.foldl (fun m kv => setPos m kv.1 kv.2) m = m ++ l := by
  induction l with
  | nil => intro m _ _; simp
  | cons kv t ih =>
    intro m hnd hdisj
    have hhead : kv.1 ∉ m.map Prod.fst := hdisj kv.1 (by simp)
    rw [List.map_cons] at hnd
    have hnd' := List.nodup_cons.1 hnd
    have hdisj' : ∀ k ∈ t.map Prod.fst,
        k ∉ (m ++ [(kv.1, kv.2)]).map Prod.fst := by
      intro k hk
      rw [List.map_append, List.mem_append]
      rintro (h | h)
      · exact hdisj k (by simp [hk]) h
      · have hk1 : k = kv.1 := by simpa using h
        exact hnd'.1 (hk1 ▸ hk)
    simp only [List.foldl_cons]
    rw [setPos_of_not_mem kv.2 hhead, ih _ hnd'.2 hdisj']
    simp

/-- When all emitted keys are distinct, the layout map is the stream
itself. -/
theorem layoutPositions_eq_stream {nodes : List DagNode}
    (h : ((positionStream nodes).map Prod.fst).Nodup) :
    layoutPositions nodes = positionStream nodes := by
  simpa using foldl_setPos_eq (positionStream nodes) [] h (by simp)

/-! ### The emitted key stream is a permutation of the node hashes -/

/-- Keys emitted for one bucket are its node hashes in order. -/
theorem rowPositions_keys (i : ℕ) (ns : List DagNode) :
    (rowPositions i ns).map Prod.fst = ns.map DagNode.hash := by
  unfold rowPositions
  rw [List.map_map]
  have : (Prod.fst ∘ fun jn : ℕ × DagNode =>
      ((jn.2.hash : String),
        (⟨rowX ns.length jn.1, (i : ℚ) * verticalSpacing, jn.2⟩ :
          NodePosition)))
      = DagNode.hash ∘ Prod.snd := rfl
  rw [this, ← List.map_map, List.enum_map_snd]

/-- The emitted key stream, bucket by bucket. -/
theorem streamKeys (nodes : List DagNode) :
    (positionStream nodes).map Prod.fst
      = ((sortedHeights nodes).flatMap
          (fun h => bucketOf (groupByHeight nodes) h)).map DagNode.hash := by
  unfold positionStream
  rw [List.map_flatMap, List.map_flatMap]
  simp only [rowPositions_keys]
  conv_rhs => rw [← List.enum_map_snd (sortedHeights nodes), List.flatMap_map]

/-- Sum of an indicator map over a duplicate-free list. -/
theorem sum_if_eq_single {l : List Int} (hn : l.Nodup) (b : Int) (c : ℕ) :
    (l.map (fun h => if b = h then c else 0)).sum = if b ∈ l then c else 0 := by
  induction l with
  | nil => simp
  | cons x t ih =>
    rw [List.map_cons, List.sum_cons, ih (List.nodup_cons.1 hn).2]
    by_cases hbx : b = x
    · subst hbx
      simp [(List.nodup_cons.1 hn).1]
    · simp [hbx]

/-- Concatenating the buckets over the sorted heights permutes the
fetched node list. -/
theorem flatMap_buckets_perm (nodes : List DagNode) :
    ((sortedHeights nodes).flatMap
      (fun h => bucketOf (groupByHeight nodes) h)).Perm nodes := by
  rw [List.perm_iff_count]
  intro a
  rw [List.count_flatMap]
  have hbucket : ∀ h : Int,
      List.count a (bucketOf (groupByHeight nodes) h)
        = if a.height = h then List.count a nodes else 0 := by
    intro h
    rw [bucket_groupByHeight]
    by_cases hh : a.height = h
    · rw [if_pos hh, List.count_filter (by simpa using hh)]
    · rw [if_neg hh]
      refine List.count_eq_zero.2 (fun hmem => hh ?_)
      simpa using (List.mem_filter.1 hmem).2
  simp only [Function.comp_def, hbucket]
  rw [sum_if_eq_single (sortedHeights_nodup nodes)]
  by_cases ha : a ∈ nodes
  · rw [if_pos ((mem_sortedHeights nodes a.height).2 ⟨a, ha, rfl⟩)]
  · simp [List.count_eq_zero.2 ha]

/-- The emitted key stream is a permutation of the node hash list. -/
theorem streamKeys_perm (nodes : List DagNode) :
    ((positionStream nodes).map Prod.fst).Perm (nodes.map DagNode.hash) := by
  rw [streamKeys]
  exact (flatMap_buckets_perm nodes).map _

/-- C1: for a non-empty fetched node set with pairwise-distinct hashes,
the layout map has exactly one entry per input node; every input hash
occurs as a key exactly once. -/
theorem layout_covers_all_hashes (nodes : List DagNode) (hne : nodes ≠ [])
    (hnd : (nodes.map DagNode.hash).Nodup) :
    (layoutPositions nodes).length = nodes.length ∧
    ∀ n ∈ nodes,
      ((layoutPositions nodes).map Prod.fst).count n.hash = 1 := by
  have hskeys := streamKeys_perm nodes
  have hknd : ((positionStream nodes).map Prod.fst).Nodup :=
    hskeys.nodup_iff.2 hnd
  have heq := layoutPositions_eq_stream hknd
  constructor
  · rw [heq, ← List.length_map (positionStream nodes) Prod.fst,
      hskeys.length_eq, List.length_map]
  · intro n hn
    rw [heq, hskeys.count_eq]
    exact List.count_eq_one_of_mem hnd (List.mem_map_of_mem _ hn)

/-- Witness for C1 on the sample node set. -/
theorem layout_covers_all_hashes_witness :
    (layoutPositions sampleNodes).length = sampleNodes.length ∧
    ((layoutPositions sampleNodes).map Prod.fst).count nodeA.hash = 1 :=
  ⟨(layout_covers_all_hashes sampleNodes (by decide) (by decide)).1,
   (layout_covers_all_hashes sampleNodes (by decide) (by decide)).2 nodeA
     (by decide)⟩

/-! ### The emitted position of every entry -/

/-- Characterization of the pairs emitted for one bucket. -/
theorem mem_rowPositions {i : ℕ} {ns : List DagNode} {k : String}
    {p : NodePosition} :
    (k, p) ∈ rowPositions i ns ↔
      ∃ j n, ns[j]? = some n ∧ k = n.hash ∧
        p = ⟨rowX ns.length j, (i : ℚ) * verticalSpacing, n⟩ := by
  unfold rowPositions
  rw [List.mem_map]
  constructor
  · rintro ⟨jn, hmem, heq⟩
    obtain ⟨hk, hp⟩ := Prod.ext_iff.1 heq
    exact ⟨jn.1, jn.2, List.mem_enum_iff_getElem?.1 hmem, hk.symm, hp.symm⟩
  · rintro ⟨j, n, hj, hk, hp⟩
    exact ⟨(j, n), List.mem_enum_iff_getElem?.2 hj, by rw [hk, hp]⟩

/-- Characterization of the pairs emitted by the whole layout pass. -/
theorem mem_positionStream {nodes : List DagNode} {k : String}
    {p : NodePosition} :
    (k, p) ∈ positionStream nodes ↔
      ∃ (i : ℕ) (h : Int), (sortedHeights nodes)[i]? = some h ∧
        ∃ (j : ℕ) (n : DagNode),
          (bucketOf (groupByHeight nodes) h)[j]? = some n ∧
          k = n.hash ∧
          p = ⟨rowX (bucketOf (groupByHeight nodes) h).length j,
               (i : ℚ) * verticalSpacing, n⟩ := by
  unfold positionStream
  rw [List.mem_flatMap]
  constructor
  · rintro ⟨ih, hmem, hrow⟩
    obtain ⟨j, n, hj, hk, hp⟩ := mem_rowPositions.1 hrow
    exact ⟨ih.1, ih.2, List.mem_enum_iff_getElem?.1 hmem, j, n, hj, hk, hp⟩
  · rintro ⟨i, h, hi, j, n, hj, hk, hp⟩
    exact ⟨(i, h), List.mem_enum_iff_getElem?.2 hi,
      mem_rowPositions.2 ⟨j, n, hj, hk, hp⟩⟩

/-- Bucket members have the bucket's height. -/
theorem height_of_mem_bucket {nodes : List DagNode} {h : Int} {n : DagNode}
    (hmem : n ∈ bucketOf (groupByHeight nodes) h) : n.height = h := by
  rw [bucket_groupByHeight] at hmem
  simpa using (List.mem_filter.1 hmem).2

/-- Positional lookup implies membership. -/
theorem mem_of_getElem? {α : Type*} {l : List α} {i : ℕ} {a : α}
    (h : l[i]? = some a) : a ∈ l := by
  obtain ⟨hi, rfl⟩ := List.getElem?_eq_some.1 h
  exact List.getElem_mem hi

/-- C2: within one layout pass, equal heights receive equal `y` and a
strictly greater height receives a strictly smaller `y` (newest on
top). -/
theorem same_height_same_y (nodes : List DagNode) (k1 k2 : String)
    (p1 p2 : NodePosition) (h1 : (k1, p1) ∈ layoutPositions nodes)
    (h2 : (k2, p2) ∈ layoutPositions nodes) :
    (p1.node.height = p2.node.height → p1.y = p2.y) ∧
    (p2.node.height < p1.node.height → p1.y < p2.y) := by
  obtain ⟨i1, ht1, hi1, j1, n1, hj1, hk1, hp1⟩ :=
    mem_positionStream.1 (mem_layoutPositions h1)
  obtain ⟨i2, ht2, hi2, j2, n2, hj2, hk2, hp2⟩ :=
    mem_positionStream.1 (mem_layoutPositions h2)
  have hn1 : p1.node = n1 := by rw [hp1]
  have hn2 : p2.node = n2 := by rw [hp2]
  have hh1 : n1.height = ht1 := height_of_mem_bucket (mem_of_getElem? hj1)
  have hh2 : n2.height = ht2 := height_of_mem_bucket (mem_of_getElem? hj2)
  have hy1 : p1.y = (i1 : ℚ) * verticalSpacing := by rw [hp1]
  have hy2 : p2.y = (i2 : ℚ) * verticalSpacing := by rw [hp2]
  constructor
  · intro heq
    have hts : ht1 = ht2 := by
      rw [← hh1, ← hh2, ← hn1, ← hn2, heq]
    have hi : i1 = i2 :=
      getElem?_nodup_inj (sortedHeights_nodup nodes) hi1 (hts ▸ hi2)
    rw [hy1, hy2, hi]
  · intro hlt
    have hts : ht2 < ht1 := by
      rw [← hh1, ← hh2, ← hn1, ← hn2]
      exact hlt
    have hij : i1 < i2 :=
      sorted_desc_index_lt (sortedHeights_sorted nodes)
        (sortedHeights_nodup nodes) hi1 hi2 hts
    rw [hy1, hy2]
    have hc : (i1 : ℚ) < (i2 : ℚ) := by exact_mod_cast hij
    have hv : (0 : ℚ) < verticalSpacing := by norm_num [verticalSpacing]
    exact mul_lt_mul_of_pos_right hc hv

/-- Witness for C2 on the sample layout: `a` (height 5) above `c`
(height 4); `a` and `b` (both height 5) share a `y`. -/
theorem same_height_same_y_witness :
    ((⟨-110, 0, nodeA⟩ : NodePosition).y < (⟨0, 120, nodeC⟩ : NodePosition).y) ∧
    ((⟨-110, 0, nodeA⟩ : NodePosition).y = (⟨110, 0, nodeB⟩ : NodePosition).y) :=
  ⟨(same_height_same_y sampleNodes "aa11" "cc33" ⟨-110, 0, nodeA⟩
      ⟨0, 120, nodeC⟩ (by decide) (by decide)).2 (by decide),
   (same_height_same_y sampleNodes "aa11" "bb22" ⟨-110, 0, nodeA⟩
      ⟨110, 0, nodeB⟩ (by decide) (by decide)).1 (by decide)⟩

/-! ### Hit-testing -/

/-- Geometric separation of the layout: if the rectangle of one emitted
position contains the center of another emitted position, the two
positions coincide (rows are 120 apart but rectangles only 70 tall;
columns are 220 apart but rectangles only 160 wide). -/
theorem stream_hit_unique (nodes : List DagNode)
    {e1 e2 : String × NodePosition} (h1 : e1 ∈ positionStream nodes)
    (h2 : e2 ∈ positionStream nodes)
    (hh : nodeHit e1.2 e2.2.x e2.2.y = true) : e1.2 = e2.2 := by
  obtain ⟨k1, p1⟩ := e1
  obtain ⟨k2, p2⟩ := e2
  obtain ⟨i1, ht1, hi1, j1, n1, hj1, hk1, hp1⟩ := mem_positionStream.1 h1
  obtain ⟨i2, ht2, hi2, j2, n2, hj2, hk2, hp2⟩ := mem_positionStream.1 h2
  subst hp1
  subst hp2
  simp only [nodeHit, Bool.and_eq_true, decide_eq_true_eq,
    verticalSpacing] at hh
  obtain ⟨⟨⟨hx1, hx2⟩, hy1⟩, hy2⟩ := hh
  have hi12 : i1 = i2 := by
    have hle : i1 ≤ i2 := by
      by_contra hcon
      push_neg at hcon
      have hc : (i2 : ℚ) + 1 ≤ (i1 : ℚ) := by exact_mod_cast hcon
      nlinarith
    have hge : i2 ≤ i1 := by
      by_contra hcon
      push_neg at hcon
      have hc : (i1 : ℚ) + 1 ≤ (i2 : ℚ) := by exact_mod_cast hcon
      nlinarith
    exact le_antisymm hle hge
  subst hi12
  have hts : ht1 = ht2 := Option.some.inj (hi1.symm.trans hi2)
  subst hts
  have hj12 : j1 = j2 := by
    unfold rowX horizontalSpacing at hx1 hx2
    rcases Nat.lt_trichotomy j1 j2 with h | h | h
    · exfalso
      have hc : (j1 : ℚ) + 1 ≤ (j2 : ℚ) := by exact_mod_cast h
      nlinarith
    · exact h
    · exfalso
      have hc : (j2 : ℚ) + 1 ≤ (j1 : ℚ) := by exact_mod_cast h
      nlinarith
  subst hj12
  have hn12 : n1 = n2 := Option.some.inj (hj1.symm.trans hj2)
  subst hn12
  rfl

/-- Hit-testing a laid-out node at its own position returns that node. -/
theorem hitTest_layout_center (nodes : List DagNode) {k : String}
    {p : NodePosition} (hmem : (k, p) ∈ layoutPositions nodes) :
    hitTest (layoutPositions nodes) p.x p.y = some p.node := by
  have hself : nodeHit p p.x p.y = true := by
    simp only [nodeHit, Bool.and_eq_true, decide_eq_true_eq]
    refine ⟨⟨⟨?_, ?_⟩, ?_⟩, ?_⟩ <;> linarith
  have hsome : (List.find? (fun kv => nodeHit kv.2 p.x p.y)
      (layoutPositions nodes)).isSome = true :=
    List.find?_isSome.2 ⟨(k, p), hmem, hself⟩
  obtain ⟨e, he⟩ := Option.isSome_iff_exists.1 hsome
  unfold hitTest
  rw [he]
  have hpred := List.find?_some he
  have hmem' := List.mem_of_find?_eq_some he
  have hep : e.2 = p :=
    stream_hit_unique nodes (mem_layoutPositions hmem')
      (mem_layoutPositions hmem) hpred
  show some e.2.node = some p.node
  rw [hep]

/-- C6: for every laid-out node, every zoom in `[0.2, 3]` and every pan
offset, a click (with no drag movement) at the screen point that the
inverse transform maps to the node's model-space position selects that
node. -/
theorem click_at_center_selects (nodes : List DagNode) (k : String)
    (p : NodePosition) (hmem : (k, p) ∈ layoutPositions nodes)
    (zoom : ℚ) (hz1 : 1/5 ≤ zoom) (hz2 : zoom ≤ 3) (panOffset : Pt)
    (rectLeft rectTop width : ℚ) (sel : Option DagNode) :
    handleCanvasClick rectLeft rectTop width
      ⟨rectLeft + width / 2 + panOffset.x + zoom * p.x,
       rectTop + 80 + panOffset.y + zoom * p.y⟩
      panOffset zoom (layoutPositions nodes) sel
      (rectLeft + width / 2 + panOffset.x + zoom * p.x)
      (rectTop + 80 + panOffset.y + zoom * p.y) = some p.node := by
  have hz0 : zoom ≠ 0 := ne_of_gt (lt_of_lt_of_le (by norm_num) hz1)
  unfold handleCanvasClick
  dsimp only
  have hthr : ¬(5 < jsAbs (rectLeft + width / 2 + panOffset.x + zoom * p.x
        - (rectLeft + width / 2 + panOffset.x + zoom * p.x)) ∨
      5 < jsAbs (rectTop + 80 + panOffset.y + zoom * p.y
        - (rectTop + 80 + panOffset.y + zoom * p.y))) := by
    rw [sub_self, sub_self]
    norm_num [jsAbs]
  rw [if_neg hthr]
  have hx : (rectLeft + width / 2 + panOffset.x + zoom * p.x - rectLeft
      - width / 2 - panOffset.x) / zoom = p.x := by
    rw [show rectLeft + width / 2 + panOffset.x + zoom * p.x - rectLeft
        - width / 2 - panOffset.x = zoom * p.x by ring,
      mul_div_cancel_left₀ p.x hz0]
  have hy : (rectTop + 80 + panOffset.y + zoom * p.y - rectTop - 80
      - panOffset.y) / zoom = p.y := by
    rw [show rectTop + 80 + panOffset.y + zoom * p.y - rectTop - 80
        - panOffset.y = zoom * p.y by ring,
      mul_div_cancel_left₀ p.y hz0]
  rw [hx, hy]
  exact hitTest_layout_center nodes hmem

/-- Witness for C6 on the sample layout: clicking the screen image of
node `b`'s position at zoom `1/2`, pan `(7,-9)` selects `b`. -/
theorem click_at_center_selects_witness :
    handleCanvasClick 3 4 800
      ⟨3 + 800 / 2 + 7 + (1/2) * 110, 4 + 80 + (-9) + (1/2) * 0⟩
      ⟨7, -9⟩ (1/2) (layoutPositions sampleNodes) none
      (3 + 800 / 2 + 7 + (1/2) * 110) (4 + 80 + (-9) + (1/2) * 0)
      = some nodeB :=
  click_at_center_selects sampleNodes "bb22" ⟨110, 0, nodeB⟩ (by decide)
    (1/2) (by norm_num) (by norm_num) ⟨7, -9⟩ 3 4 800 none

end DagViz
